import Mathlib

/-!
Verification of the decision-tree fitting core (src/decision_tree.rs).

Floating-point values are embedded as exact rationals extended with a NaN
element (`F64`): arithmetic propagates NaN, and the IEEE comparison
operators treat NaN as incomparable.  The external collaborators declared
in the spec (the `Table` storage and the numeric helpers `mean` and
`most_frequent`) are not part of the source tree; they are modelled from
the spec, as marked in their doc comments.  Fallible code (panics via
`expect` and out-of-bounds indexing) is modelled with `Option`.
-/

namespace Fanova

/-- A 64-bit float value, embedded as an exact rational or NaN. -/
inductive F64 where
  | nan : F64
  | val (q : ℚ) : F64
deriving DecidableEq

namespace F64

/-- IEEE strict less-than: any comparison against NaN is false. -/
def ltb : F64 → F64 → Bool
  | val a, val b => decide (a < b)
  | _, _ => false

/-- IEEE less-or-equal: any comparison against NaN is false. -/
def leb : F64 → F64 → Bool
  | val a, val b => decide (a ≤ b)
  | _, _ => false

/-- IEEE equality: NaN is not equal to anything, including itself. -/
def beq : F64 → F64 → Bool
  | val a, val b => decide (a = b)
  | _, _ => false

def isNan : F64 → Bool
  | nan => true
  | val _ => false

def add : F64 → F64 → F64
  | val a, val b => val (a + b)
  | _, _ => nan

def sub : F64 → F64 → F64
  | val a, val b => val (a - b)
  | _, _ => nan

def mul : F64 → F64 → F64
  | val a, val b => val (a * b)
  | _, _ => nan

/-- Division; division by zero is collapsed to NaN (it only arises in the
program as 0.0/0.0 on an empty sequence, which is NaN in IEEE). -/
def div : F64 → F64 → F64
  | val a, val b => if b = 0 then nan else val (a / b)
  | _, _ => nan

/-- The total order used by `ordered_float::OrderedFloat`: real values are
ordered as usual and NaN is greater than every real value. -/
def cmpOF : F64 → F64 → Ordering
  | val a, val b => if a < b then .lt else if b < a then .gt else .eq
  | val _, nan => .lt
  | nan, val _ => .gt
  | nan, nan => .eq

/-- Boolean less-or-equal in the `OrderedFloat` total order. -/
def leOF (a b : F64) : Bool :=
  match cmpOF a b with
  | .gt => false
  | _ => true

/-- Sum of a sequence, as the source's `sum::<f64>()` (NaN-propagating). -/
def fsum (l : List F64) : F64 := l.foldl add (val 0)

end F64

/-- Modelled from the spec: the numeric helper `functions::mean`
(arithmetic mean, sum divided by count); the helper itself is not under
src/.  Iterating an empty sequence gives 0.0/0.0 = NaN. -/
def mean (l : List F64) : F64 :=
  F64.div (F64.fsum l) (F64.val (l.length : ℚ))

/-- Modelled from the spec: the numeric helper `functions::most_frequent`
(value with the highest occurrence count, ties resolved by encounter
order); the helper itself is not under src/. -/
def mostFrequent (l : List F64) : F64 :=
  (l.foldl
    (fun acc x =>
      let c := l.countP (fun y => F64.beq y x)
      match acc with
      | none => some (x, c)
      | some (bx, bc) => if bc < c then some (x, c) else some (bx, bc))
    none).elim F64.nan (·.1)

/-- The MSE criterion: `n = count`, `m = mean`, then the mean of the
squared deviations (`(y - m).powi(2)` summed, divided by `n`). -/
def Mse.calculate (l : List F64) : F64 :=
  F64.div
    (F64.fsum (l.map fun y => F64.mul (F64.sub y (mean l)) (F64.sub y (mean l))))
    (F64.val (l.length : ℚ))

/-- A table row: the feature values and the target value. -/
abbrev Row := List F64 × F64

/-- Reading feature `c` of a row (rows are always long enough in use). -/
def rowFeature (r : Row) (c : ℕ) : F64 := r.1.getD c F64.nan

/-- Modelled from the spec: the tabular storage (`crate::table::Table`) is
not under src/.  It holds feature columns and a target column aligned by
row; we store the rows directly together with the column count. -/
structure Table where
  ncols : ℕ
  rows : List Row
deriving DecidableEq

namespace Table

/-- The target column in current row order. -/
def target (t : Table) : List F64 := t.rows.map (·.2)

/-- Feature column `c` in current row order. -/
def colVals (t : Table) (c : ℕ) : List F64 := t.rows.map (rowFeature · c)

/-- Modelled from the spec: `Table::is_single_target` is true iff every
target value is identical (exact scalar comparison, hence IEEE equality). -/
def isSingleTarget (t : Table) : Bool :=
  match t.target with
  | [] => true
  | y :: ys => ys.all (F64.beq y)

/-- The row ordering used by `sort_rows_by_feature`: ascending value of
the given feature column in the `OrderedFloat` total order. -/
def rowLe (c : ℕ) (r s : Row) : Prop :=
  F64.leOF (rowFeature r c) (rowFeature s c) = true

instance (c : ℕ) : DecidableRel (rowLe c) := fun _ _ => by
  unfold rowLe; infer_instance

/-- Modelled from the spec: `Table::sort_rows_by_feature` reorders all
columns and the target congruently by ascending value of the given
feature column (order among equal values unspecified; we fix the stable
insertion sort). -/
def sortRowsByFeature (c : ℕ) (t : Table) : Table :=
  { t with rows := t.rows.insertionSort (rowLe c) }

/-- Candidate enumeration helper: walking the sorted column, a candidate
`(row, threshold)` exists at every boundary where the value strictly
increases; `threshold` is the value at the first row of the right side. -/
def thresholdsAux : ℕ → List F64 → List (ℕ × F64)
  | _, [] => []
  | _, [_] => []
  | i, a :: b :: rest =>
    (if F64.ltb a b then [(i + 1, b)] else []) ++ thresholdsAux (i + 1) (b :: rest)

/-- Modelled from the spec: `Table::thresholds` enumerates the candidate
split points of a (sorted) column, ascending row index. -/
def thresholds (xs : List F64) : List (ℕ × F64) := thresholdsAux 0 xs

/-- Whether feature column `c` currently contains a NaN. -/
def hasNanCol (t : Table) (c : ℕ) : Bool := (t.colVals c).any F64.isNan

end Table

/-- The winning split stored at an internal node. -/
structure SplitPoint where
  information_gain : F64
  column : ℕ
  threshold : F64
deriving DecidableEq

/-- A fitted node: a leaf, or an internal node with a fallback label, a
split, and two children (the source's `children : Option<Children>`). -/
inductive Node where
  | leaf (label : F64) : Node
  | node (label : F64) (split : SplitPoint) (left right : Node) : Node
deriving DecidableEq

/-- `Node::predict`: walk the tree; `xs[column]` out of bounds is a panic,
modelled as `none`. -/
def Node.predict : Node → List F64 → Option F64
  | .leaf label, _ => some label
  | .node _ sp l r, xs =>
    match xs.get? sp.column with
    | none => none
    | some v => if F64.leb v sp.threshold then l.predict xs else r.predict xs

/-- The information gain of the candidate at boundary `row`:
`impurity - (n_l * impurity_l + n_r * impurity_r)` with
`n_l = row as f64 / rows as f64` and `n_r = 1.0 - n_l`, the impurities
taken over the first `row` and the remaining targets. -/
def gainAt (crit : List F64 → F64) (imp : F64) (rows : ℕ) (tg : List F64)
    (row : ℕ) : F64 :=
  let impurityL := crit (tg.take row)
  let impurityR := crit (tg.drop row)
  let nl := F64.div (F64.val (row : ℚ)) (F64.val (rows : ℚ))
  let nr := F64.sub (F64.val 1) nl
  F64.sub imp (F64.add (F64.mul nl impurityL) (F64.mul nr impurityR))

/-- The `SplitPoint` candidates of one (already sorted) column. -/
def splitsOfColumn (crit : List F64 → F64) (imp : F64) (rows : ℕ)
    (t : Table) (c : ℕ) : List SplitPoint :=
  (Table.thresholds (t.colVals c)).map fun rt =>
    { information_gain := gainAt crit imp rows t.target rt.1
      column := c
      threshold := rt.2 }

/-- One step of the best-candidate tracking:
`best.as_ref().map_or(true, |t| t.information_gain < information_gain)`. -/
def bestStep (b : Option SplitPoint) (sp : SplitPoint) : Option SplitPoint :=
  match b with
  | none => some sp
  | some bb => if F64.ltb bb.information_gain sp.information_gain then some sp else b

/-- Folding the best-candidate tracking over a candidate list. -/
def bestFold (b : Option SplitPoint) (l : List SplitPoint) : Option SplitPoint :=
  l.foldl bestStep b

/-- The column scan of `NodeBuilder::build`: for each column in order,
skip it if it contains a NaN, otherwise sort the rows by it and fold its
candidates into the running best, threading the (mutated) table. -/
def scanFold (crit : List F64 → F64) (imp : F64) (rows : ℕ) :
    List ℕ → Option SplitPoint × Table → Option SplitPoint × Table
  | [], st => st
  | c :: cs, (best, t) =>
    if t.hasNanCol c then scanFold crit imp rows cs (best, t)
    else
      let t' := t.sortRowsByFeature c
      scanFold crit imp rows cs (bestFold best (splitsOfColumn crit imp rows t' c), t')

/-- The net effect of the column scan on the table alone. -/
def stepTable (t : Table) (c : ℕ) : Table :=
  if t.hasNanCol c then t else t.sortRowsByFeature c

/-- The table state after scanning the given columns. -/
def scanTable (t : Table) (cols : List ℕ) : Table := cols.foldl stepTable t

/-- `slice::binary_search_by_key` of the Rust standard library (the
current branchless implementation: no early exit on equality), composed
with `unwrap_or_else(|i| i)` as in `NodeBuilder::build_children`.  The
first argument is fuel for the loop; since the window shrinks at every
iteration, fuel equal to the slice length always suffices. -/
def bsGo (xs : List F64) (key : F64) : ℕ → ℕ → ℕ → ℕ
  | 0, base, _ => base
  | fuel + 1, base, size =>
    if size ≤ 1 then
      match F64.cmpOF (xs.getD base F64.nan) key with
      | .eq => base
      | .lt => base + 1
      | .gt => base
    else if F64.cmpOF (xs.getD (base + size / 2) F64.nan) key = .gt then
      bsGo xs key fuel base (size - size / 2)
    else
      bsGo xs key fuel (base + size / 2) (size - size / 2)

/-- The partition index used when materializing a split. -/
def rustBinarySearch (xs : List F64) (key : F64) : ℕ :=
  if xs.length = 0 then 0 else bsGo xs key xs.length 0 xs.length

/-- The left sub-table of a materialized split: the scanned table is
re-sorted by the winning column and the rows before the binary-search
index are taken. -/
def leftChild (t : Table) (sp : SplitPoint) : Table :=
  let t' := (scanTable t (List.range t.ncols)).sortRowsByFeature sp.column
  { t' with rows := t'.rows.take (rustBinarySearch (t'.colVals sp.column) sp.threshold) }

/-- The right sub-table of a materialized split. -/
def rightChild (t : Table) (sp : SplitPoint) : Table :=
  let t' := (scanTable t (List.range t.ncols)).sortRowsByFeature sp.column
  { t' with rows := t'.rows.drop (rustBinarySearch (t'.colVals sp.column) sp.threshold) }

/-- `NodeBuilder::build`, with explicit fuel for the recursion; `none`
models a panic (`expect` failing, or fuel exhaustion, which never occurs
at the fuel used by `fit`). -/
def build (crit : List F64 → F64) (classification : Bool) :
    ℕ → Table → Option Node
  | 0, _ => none
  | fuel + 1, t =>
    if t.isSingleTarget then t.target.head?.map Node.leaf
    else
      match (scanFold crit (crit t.target) t.target.length
          (List.range t.ncols) (none, t)).1 with
      | none => none
      | some sp =>
        match build crit classification fuel (leftChild t sp),
              build crit classification fuel (rightChild t sp) with
        | some l, some r =>
          some (Node.node
            (if classification then mostFrequent t.target else mean t.target)
            sp l r)
        | _, _ => none

/-- The fitted tree owns exactly one root node. -/
structure Tree where
  root : Node
deriving DecidableEq

/-- `Tree::fit`; the fuel `rows + 1` dominates the recursion depth. -/
def Tree.fit (crit : List F64 → F64) (classification : Bool) (t : Table) :
    Option Tree :=
  (build crit classification (t.rows.length + 1) t).map Tree.mk

/-- `Tree::predict`. -/
def Tree.predict (tr : Tree) (xs : List F64) : Option F64 :=
  tr.root.predict xs

/-- The end-to-end regression example table of the spec: one feature
column `[1,2,3,4]`, target `[0,0,10,10]`. -/
def exTable : Table :=
  { ncols := 1
    rows := [([F64.val 1], F64.val 0), ([F64.val 2], F64.val 0),
             ([F64.val 3], F64.val 10), ([F64.val 4], F64.val 10)] }

/-- The tree the code fits on `exTable`. -/
def exTree : Tree :=
  ⟨Node.node (F64.val 5)
    { information_gain := F64.val 25, column := 0, threshold := F64.val 3 }
    (Node.leaf (F64.val 0)) (Node.leaf (F64.val 10))⟩

/-- Candidate enumeration annotated with the scan position: for each
candidate, the column index, the boundary row index, and the
`SplitPoint` the builder computes for it (one sorted column). -/
def splitsAnn (crit : List F64 → F64) (imp : F64) (rows : ℕ)
    (t : Table) (c : ℕ) : List (ℕ × ℕ × SplitPoint) :=
  (Table.thresholds (t.colVals c)).map fun rt =>
    (c, rt.1,
      { information_gain := gainAt crit imp rows t.target rt.1
        column := c
        threshold := rt.2 })

/-- All candidates the scan evaluates, in scan order (ascending column,
then ascending boundary row), annotated with their scan position, with
the table evolving exactly as in `scanFold`. -/
def annSplits (crit : List F64 → F64) (imp : F64) (rows : ℕ) :
    List ℕ → Table → List (ℕ × ℕ × SplitPoint)
  | [], _ => []
  | c :: cs, t =>
    (if t.hasNanCol c then [] else splitsAnn crit imp rows (t.sortRowsByFeature c) c)
      ++ annSplits crit imp rows cs (stepTable t c)

/-- Scan order on annotated candidates: lower column first, then lower
boundary row within a column. -/
def entLex (a b : ℕ × ℕ × SplitPoint) : Prop :=
  a.1 < b.1 ∨ (a.1 = b.1 ∧ a.2.1 < b.2.1)

/-- The index of the first row whose value is not less than the
threshold (the partition index the spec describes). -/
def firstGeIdx (xs : List F64) (thr : F64) : ℕ :=
  xs.findIdx fun v => !(F64.ltb v thr)

/-- The partition invariant at every internal node of a fitted tree:
the recorded threshold is an observed feature value of the rows reaching
the node, the two materialized sub-tables are non-empty and together
carry exactly the rows reaching the node, every left row's value in the
split column is less-or-equal the threshold, and every right row's value
is strictly greater (`strict = true`, the claim as stated) respectively
greater-or-equal (`strict = false`, the amended claim). -/
inductive BuildInv (strict : Bool) : Table → Node → Prop where
  | leaf (t : Table) (label : F64) : BuildInv strict t (.leaf label)
  | node (t : Table) (label : F64) (sp : SplitPoint) (l r : Node)
      (hthr : ∃ row ∈ t.rows, rowFeature row sp.column = sp.threshold)
      (hL : (leftChild t sp).rows ≠ [])
      (hR : (rightChild t sp).rows ≠ [])
      (hperm : ((leftChild t sp).rows ++ (rightChild t sp).rows).Perm t.rows)
      (hle : ∀ row ∈ (leftChild t sp).rows,
        F64.leb (rowFeature row sp.column) sp.threshold = true)
      (hge : ∀ row ∈ (rightChild t sp).rows,
        cond strict (F64.ltb sp.threshold (rowFeature row sp.column))
          (F64.leb sp.threshold (rowFeature row sp.column)) = true)
      (hl : BuildInv strict (leftChild t sp) l)
      (hr : BuildInv strict (rightChild t sp) r) :
      BuildInv strict t (.node label sp l r)

/-- The prediction walk exactly as the spec words it: starting at the
root, compare the feature at the split column with the threshold,
descend left on less-or-equal and right otherwise, and return the label
of the leaf reached. -/
def specDescend : Node → List F64 → F64
  | .leaf label, _ => label
  | .node _ sp l r, xs =>
    if F64.leb (xs.getD sp.column F64.nan) sp.threshold then specDescend l xs
    else specDescend r xs

/-- The feature vector is long enough for every column referenced on the
path the walk takes. -/
def pathFits : Node → List F64 → Bool
  | .leaf _, _ => true
  | .node _ sp l r, xs =>
    decide (sp.column < xs.length) &&
      (if F64.leb (xs.getD sp.column F64.nan) sp.threshold then pathFits l xs
       else pathFits r xs)

/-- The average squared deviation from the arithmetic mean, written
directly in exact rational arithmetic (the claimed value of `Mse`). -/
def mseSpecQ (l : List ℚ) : ℚ :=
  (l.map fun y => (y - l.sum / l.length) ^ 2).sum / l.length

/-- A table whose winning threshold value occurs three times in its
column: one feature column `[1,3,3,3]`, target `[0,10,10,10]`. -/
def exTable4 : Table :=
  { ncols := 1
    rows := [([F64.val 1], F64.val 0), ([F64.val 3], F64.val 10),
             ([F64.val 3], F64.val 10), ([F64.val 3], F64.val 10)] }

/-- A table whose second feature column holds a NaN in the row that the
root split sends right: columns `[1,1,2]` and `[5,6,NaN]`, target
`[0,1,7]`.  The root must skip column 1, and the left child re-admits
it. -/
def exTable7 : Table :=
  { ncols := 2
    rows := [([F64.val 1, F64.val 5], F64.val 0),
             ([F64.val 1, F64.val 6], F64.val 1),
             ([F64.val 2, F64.nan], F64.val 7)] }

/-- The tree the code fits on `exTable7`: the root splits on column 0
(column 1 is skipped for its NaN), and the left child splits on
column 1. -/
def exTree7 : Tree :=
  ⟨Node.node (F64.val (8/3))
    { information_gain := F64.val (169/18), column := 0, threshold := F64.val 2 }
    (Node.node (F64.val (1/2))
      { information_gain := F64.val (1/4), column := 1, threshold := F64.val 6 }
      (Node.leaf (F64.val 0)) (Node.leaf (F64.val 1)))
    (Node.leaf (F64.val 7))⟩

/-- The sorted winning column at split-materialization time. -/
def sortedSplitCol (t : Table) (sp : SplitPoint) : List F64 :=
  ((scanTable t (List.range t.ncols)).sortRowsByFeature sp.column).colVals sp.column

/-- A table with differing targets whose only feature column is all-NaN:
the scan enumerates no candidate at all. -/
def exTable9 : Table :=
  { ncols := 1
    rows := [([F64.nan], F64.val 0), ([F64.nan], F64.val 1)] }

/-! ### Basic facts about the float ordering -/

theorem F64.ltb_irrefl (a : F64) : F64.ltb a a = false := by
  cases a <;> simp [F64.ltb]

theorem F64.ltb_trans {a b c : F64} (h1 : F64.ltb a b = true)
    (h2 : F64.ltb b c = true) : F64.ltb a c = true := by
  cases a <;> cases b <;> cases c <;> simp_all [F64.ltb]
  linarith

theorem F64.ltb_isNan_left {a b : F64} (h : F64.ltb a b = true) :
    a.isNan = false := by
  cases a <;> cases b <;> simp_all [F64.ltb, F64.isNan]

theorem F64.ltb_isNan_right {a b : F64} (h : F64.ltb a b = true) :
    b.isNan = false := by
  cases a <;> cases b <;> simp_all [F64.ltb, F64.isNan]

theorem F64.beq_false_of_below {b c e : F64} (hbc : F64.ltb b c = true)
    (hbe : F64.ltb b e = false) : F64.beq e c = false := by
  cases b <;> cases c <;> cases e <;> simp_all [F64.ltb, F64.beq]
  intro he; subst he; linarith

theorem F64.ltb_false_of_below {b c e : F64} (hbc : F64.ltb b c = true)
    (hbe : F64.ltb b e = false) : F64.ltb c e = false := by
  cases b <;> cases c <;> cases e <;> simp_all [F64.ltb]
  linarith

theorem F64.cmpOF_eq_eq_iff (a b : F64) : F64.cmpOF a b = .eq ↔ a = b := by
  cases a <;> cases b
  case nan.nan => simp [F64.cmpOF]
  case nan.val q => simp [F64.cmpOF]
  case val.nan p => simp [F64.cmpOF]
  case val.val p q =>
    simp only [F64.cmpOF]
    rcases lt_trichotomy p q with h | h | h
    · have hne : ¬ p = q := ne_of_lt h
      simp [if_pos h, hne]
    · subst h
      simp [lt_irrefl]
    · have h1 : ¬ p < q := by linarith
      have hne : ¬ p = q := ne_of_gt h
      simp [if_neg h1, if_pos h, hne]

theorem F64.cmpOF_gt_iff_lt (a b : F64) :
    F64.cmpOF a b = .gt ↔ F64.cmpOF b a = .lt := by
  cases a <;> cases b
  case nan.nan => simp [F64.cmpOF]
  case nan.val q => simp [F64.cmpOF]
  case val.nan p => simp [F64.cmpOF]
  case val.val p q =>
    simp only [F64.cmpOF]
    rcases lt_trichotomy p q with h | h | h
    · simp [if_pos h, if_neg (show ¬ q < p by linarith)]
    · subst h
      simp [lt_irrefl]
    · simp [if_neg (show ¬ p < q by linarith), if_pos h]

theorem F64.leOF_eq_false_iff (a b : F64) :
    F64.leOF a b = false ↔ F64.cmpOF a b = .gt := by
  unfold F64.leOF
  rcases h : F64.cmpOF a b <;> simp [h]

theorem F64.leOF_eq_true_iff (a b : F64) :
    F64.leOF a b = true ↔ F64.cmpOF a b ≠ .gt := by
  rcases h : F64.leOF a b <;>
    simp_all [← F64.leOF_eq_false_iff]

theorem F64.leOF_val_val (p q : ℚ) :
    F64.leOF (F64.val p) (F64.val q) = true ↔ p ≤ q := by
  rw [F64.leOF_eq_true_iff]
  simp only [F64.cmpOF]
  split_ifs with h1 h2 <;> simp <;> linarith

theorem F64.leOF_nan_right (a : F64) : F64.leOF a F64.nan = true := by
  cases a <;> rfl

theorem F64.leOF_nan_left (q : ℚ) : F64.leOF F64.nan (F64.val q) = false := rfl

theorem F64.leOF_total (a b : F64) :
    F64.leOF a b = true ∨ F64.leOF b a = true := by
  rcases h : F64.leOF a b with _ | _
  · rw [F64.leOF_eq_false_iff, F64.cmpOF_gt_iff_lt] at h
    right
    rw [F64.leOF_eq_true_iff, h]
    simp
  · exact Or.inl rfl

theorem F64.leOF_trans {a b c : F64} (h1 : F64.leOF a b = true)
    (h2 : F64.leOF b c = true) : F64.leOF a c = true := by
  cases c with
  | nan => exact F64.leOF_nan_right a
  | val r =>
    cases b with
    | nan => rw [F64.leOF_nan_left] at h2; exact absurd h2 (by simp)
    | val q =>
      cases a with
      | nan => rw [F64.leOF_nan_left] at h1; exact absurd h1 (by simp)
      | val p =>
        exact (F64.leOF_val_val p r).2
          (le_trans ((F64.leOF_val_val p q).1 h1) ((F64.leOF_val_val q r).1 h2))

theorem F64.leOF_val_right {a : F64} {q : ℚ}
    (h : F64.leOF a (F64.val q) = true) : ∃ p, a = F64.val p ∧ p ≤ q := by
  cases a with
  | nan => simp [F64.leOF_eq_true_iff, F64.cmpOF] at h
  | val p => exact ⟨p, rfl, (F64.leOF_val_val p q).1 h⟩

theorem F64.leOF_val_left {p : ℚ} {b : F64}
    (h : F64.leOF (F64.val p) b = true) (hb : b.isNan = false) :
    ∃ q, b = F64.val q ∧ p ≤ q := by
  cases b with
  | nan => simp [F64.isNan] at hb
  | val q => exact ⟨q, rfl, (F64.leOF_val_val p q).1 h⟩

theorem F64.leb_val_val (p q : ℚ) (h : p ≤ q) :
    F64.leb (F64.val p) (F64.val q) = true := by
  simp [F64.leb, h]

/-! ### Sorting facts -/

instance (c : ℕ) : IsTotal Row (Table.rowLe c) where
  total r s := F64.leOF_total (rowFeature r c) (rowFeature s c)

instance (c : ℕ) : IsTrans Row (Table.rowLe c) where
  trans _ _ _ h1 h2 := F64.leOF_trans h1 h2

/-- Sorting preserves the rows up to permutation. -/
theorem sortRowsByFeature_perm (c : ℕ) (t : Table) :
    (t.sortRowsByFeature c).rows.Perm t.rows :=
  List.perm_insertionSort (Table.rowLe c) t.rows

theorem sortRowsByFeature_ncols (c : ℕ) (t : Table) :
    (t.sortRowsByFeature c).ncols = t.ncols := rfl

/-- After sorting by column `c`, that column is sorted in the
`OrderedFloat` order. -/
theorem sorted_colVals_sortRowsByFeature (c : ℕ) (t : Table) :
    ((t.sortRowsByFeature c).colVals c).Pairwise
      (fun a b => F64.leOF a b = true) := by
  have hs : (t.rows.insertionSort (Table.rowLe c)).Pairwise (Table.rowLe c) :=
    List.sorted_insertionSort (Table.rowLe c) t.rows
  have : ((t.rows.insertionSort (Table.rowLe c)).map
      (fun r => rowFeature r c)).Pairwise (fun a b => F64.leOF a b = true) := by
    rw [List.pairwise_map]
    exact hs
  exact this

/-- The scan table evolution preserves the rows up to permutation. -/
theorem stepTable_perm (t : Table) (c : ℕ) :
    (stepTable t c).rows.Perm t.rows := by
  unfold stepTable
  split
  · exact List.Perm.refl _
  · exact sortRowsByFeature_perm c t

theorem stepTable_ncols (t : Table) (c : ℕ) :
    (stepTable t c).ncols = t.ncols := by
  unfold stepTable
  split <;> rfl

theorem scanTable_perm (cols : List ℕ) (t : Table) :
    (scanTable t cols).rows.Perm t.rows := by
  induction cols generalizing t with
  | nil => exact List.Perm.refl _
  | cons c cs ih =>
    exact ((ih (stepTable t c)).trans (stepTable_perm t c))

theorem scanTable_ncols (cols : List ℕ) (t : Table) :
    (scanTable t cols).ncols = t.ncols := by
  induction cols generalizing t with
  | nil => rfl
  | cons c cs ih => exact (ih (stepTable t c)).trans (stepTable_ncols t c)

/-! ### Candidate enumeration facts -/

/-- A candidate threshold is an observed value of the column, some
strictly smaller value is also observed, and the boundary row index is
positive. -/
theorem thresholdsAux_mem (xs : List F64) :
    ∀ (i : ℕ) (rt : ℕ × F64), rt ∈ Table.thresholdsAux i xs →
      rt.2 ∈ xs ∧ (∃ a ∈ xs, F64.ltb a rt.2 = true) ∧ i < rt.1 := by
  induction xs with
  | nil => intro i rt h; simp [Table.thresholdsAux] at h
  | cons a tail ih =>
    cases tail with
    | nil => intro i rt h; simp [Table.thresholdsAux] at h
    | cons b rest =>
      intro i rt h
      rw [Table.thresholdsAux, List.mem_append] at h
      rcases h with h | h
      · rcases hab : F64.ltb a b with _ | _
        · rw [hab] at h; simp at h
        · rw [hab] at h
          simp at h
          subst h
          exact ⟨by simp, ⟨a, by simp, hab⟩, by omega⟩
      · obtain ⟨hmem, ⟨w, hw, hlt⟩, hi⟩ := ih (i + 1) rt h
        exact ⟨List.mem_cons_of_mem a hmem,
          ⟨w, List.mem_cons_of_mem a hw, hlt⟩, by omega⟩

/-- The boundary row indices of the enumerated candidates are strictly
increasing. -/
theorem thresholdsAux_pairwise (xs : List F64) :
    ∀ i, (Table.thresholdsAux i xs).Pairwise (fun p q => p.1 < q.1) := by
  induction xs with
  | nil => intro i; simp [Table.thresholdsAux]
  | cons a tail ih =>
    cases tail with
    | nil => intro i; simp [Table.thresholdsAux]
    | cons b rest =>
      intro i
      rw [Table.thresholdsAux, List.pairwise_append]
      refine ⟨?_, ih (i + 1), ?_⟩
      · rcases hab : F64.ltb a b with _ | _ <;> simp
      · intro p hp q hq
        rcases hab : F64.ltb a b with _ | _
        · rw [hab] at hp; simp at hp
        · rw [hab] at hp
          simp at hp
          subst hp
          exact (thresholdsAux_mem (b :: rest) (i + 1) q hq).2.2

/-! ### The binary search -/

theorem F64.ltb_val_val (p q : ℚ) :
    F64.ltb (F64.val p) (F64.val q) = true ↔ p < q := by
  simp [F64.ltb]

theorem sorted_leOF_getD {xs : List F64}
    (hs : xs.Pairwise (fun a b => F64.leOF a b = true)) {i j : ℕ}
    (hij : i < j) (hj : j < xs.length) :
    F64.leOF (xs.getD i F64.nan) (xs.getD j F64.nan) = true := by
  have hi : i < xs.length := lt_trans hij hj
  rw [List.getD_eq_getElem _ _ hi, List.getD_eq_getElem _ _ hj]
  exact List.pairwise_iff_getElem.1 hs i j hi hj hij

theorem F64.leOF_refl (a : F64) : F64.leOF a a = true := by
  rw [F64.leOF_eq_true_iff, (F64.cmpOF_eq_eq_iff a a).2 rfl]
  simp

theorem bsGo_spec {xs : List F64} {key : F64}
    (hs : xs.Pairwise (fun a b => F64.leOF a b = true)) :
    ∀ (fuel base size : ℕ), 1 ≤ size → size ≤ fuel →
      base + size ≤ xs.length →
      (∃ i, base ≤ i ∧ i < base + size ∧
        F64.cmpOF (xs.getD i F64.nan) key = .eq) →
      bsGo xs key fuel base size < xs.length ∧
        F64.cmpOF (xs.getD (bsGo xs key fuel base size) F64.nan) key = .eq := by
  intro fuel
  induction fuel with
  | zero => intro base size h1 h2; omega
  | succ fuel ih =>
    intro base size h1 h2 hlen hwit
    by_cases hsz : size ≤ 1
    · obtain ⟨i, hib, his, hieq⟩ := hwit
      have hib2 : i = base := by omega
      rw [← hib2, bsGo, if_pos hsz, hieq]
      constructor
      · show i < xs.length
        omega
      · show F64.cmpOF (xs.getD i F64.nan) key = .eq
        exact hieq
    · rw [bsGo, if_neg hsz]
      by_cases hgt : F64.cmpOF (xs.getD (base + size / 2) F64.nan) key = .gt
      · rw [if_pos hgt]
        apply ih base (size - size / 2) (by omega) (by omega) (by omega)
        obtain ⟨i, hib, his, hieq⟩ := hwit
        refine ⟨i, hib, ?_, hieq⟩
        by_contra hge
        push_neg at hge
        have hmidle : base + size / 2 ≤ i := by omega
        have hkey : xs.getD i F64.nan = key := (F64.cmpOF_eq_eq_iff _ _).1 hieq
        have hile : F64.leOF (xs.getD (base + size / 2) F64.nan)
            (xs.getD i F64.nan) = true := by
          rcases Nat.eq_or_lt_of_le hmidle with heq | hlt
          · rw [heq]
            exact F64.leOF_refl _
          · exact sorted_leOF_getD hs hlt (by omega)
        rw [hkey] at hile
        rw [(F64.leOF_eq_false_iff _ _).2 hgt] at hile
        exact absurd hile (by simp)
      · rw [if_neg hgt]
        apply ih (base + size / 2) (size - size / 2) (by omega) (by omega) (by omega)
        rcases hcmp : F64.cmpOF (xs.getD (base + size / 2) F64.nan) key with _ | _ | _
        · obtain ⟨i, hib, his, hieq⟩ := hwit
          refine ⟨i, ?_, by omega, hieq⟩
          by_contra hlt2
          push_neg at hlt2
          have hkey : xs.getD i F64.nan = key := (F64.cmpOF_eq_eq_iff _ _).1 hieq
          have hle : F64.leOF (xs.getD i F64.nan)
              (xs.getD (base + size / 2) F64.nan) = true :=
            sorted_leOF_getD hs hlt2 (by omega)
          rw [hkey] at hle
          have hswap : F64.cmpOF key (xs.getD (base + size / 2) F64.nan) = .gt :=
            (F64.cmpOF_gt_iff_lt _ _).2 hcmp
          rw [(F64.leOF_eq_false_iff _ _).2 hswap] at hle
          exact absurd hle (by simp)
        · exact ⟨base + size / 2, le_refl _, by omega, hcmp⟩
        · exact absurd hcmp hgt

/-- The partition index returned by the binary search is a valid index
whose value equals the searched key, whenever the column is sorted and
the key occurs in it. -/
theorem rustBinarySearch_spec {xs : List F64} {key : F64}
    (hs : xs.Pairwise (fun a b => F64.leOF a b = true)) (hmem : key ∈ xs) :
    rustBinarySearch xs key < xs.length ∧
      xs.getD (rustBinarySearch xs key) F64.nan = key := by
  obtain ⟨i, hi, hieq⟩ := List.mem_iff_getElem.1 hmem
  have hlen : xs.length ≠ 0 := by
    intro h0
    omega
  have hwit : ∃ j, 0 ≤ j ∧ j < 0 + xs.length ∧
      F64.cmpOF (xs.getD j F64.nan) key = .eq := by
    refine ⟨i, by omega, by omega, ?_⟩
    rw [List.getD_eq_getElem _ _ hi, hieq]
    exact (F64.cmpOF_eq_eq_iff key key).2 rfl
  have := bsGo_spec hs xs.length 0 xs.length (by omega) (le_refl _) (by omega) hwit
  rw [rustBinarySearch, if_neg hlen]
  exact ⟨this.1, (F64.cmpOF_eq_eq_iff _ _).1 this.2⟩

/-- If some value strictly below the key occurs in the sorted column,
the partition index is positive. -/
theorem rustBinarySearch_pos {xs : List F64} {key v : F64}
    (hs : xs.Pairwise (fun a b => F64.leOF a b = true)) (hmem : key ∈ xs)
    (hv : v ∈ xs) (hlt : F64.ltb v key = true) :
    1 ≤ rustBinarySearch xs key := by
  obtain ⟨hidx, hval⟩ := rustBinarySearch_spec hs hmem
  by_contra h0
  push_neg at h0
  have h00 : rustBinarySearch xs key = 0 := by omega
  rw [h00] at hval
  obtain ⟨j, hj, hjeq⟩ := List.mem_iff_getElem.1 hv
  obtain ⟨p, q, hvp, hkq, hpq⟩ : ∃ p q, v = F64.val p ∧ key = F64.val q ∧ p < q := by
    cases v with
    | nan => simp [F64.ltb] at hlt
    | val p =>
      cases key with
      | nan => simp [F64.ltb] at hlt
      | val q => exact ⟨p, q, rfl, rfl, (F64.ltb_val_val p q).1 hlt⟩
  rcases Nat.eq_zero_or_pos j with hj0 | hjpos
  · subst hj0
    rw [← List.getD_eq_getElem xs F64.nan hj, hval] at hjeq
    rw [hvp, hkq] at hjeq
    have hqp : q = p := by injection hjeq
    linarith
  · have hmono : F64.leOF (xs.getD 0 F64.nan) (xs.getD j F64.nan) = true :=
      sorted_leOF_getD hs hjpos hj
    rw [hval, List.getD_eq_getElem _ _ hj, hjeq] at hmono
    rw [hkq, hvp] at hmono
    rw [F64.leOF_val_val] at hmono
    linarith

/-! ### The best-candidate fold -/

theorem bestStep_none (sp : SplitPoint) : bestStep none sp = some sp := rfl

theorem bestFold_nil (b : Option SplitPoint) : bestFold b [] = b := rfl

theorem bestFold_cons (b : Option SplitPoint) (sp : SplitPoint)
    (l : List SplitPoint) : bestFold b (sp :: l) = bestFold (bestStep b sp) l := rfl

theorem bestFold_append (b : Option SplitPoint) (l₁ l₂ : List SplitPoint) :
    bestFold b (l₁ ++ l₂) = bestFold (bestFold b l₁) l₂ := by
  simp [bestFold, List.foldl_append]

theorem bestStep_isSome (b : Option SplitPoint) (sp : SplitPoint) :
    (bestStep b sp).isSome = true := by
  cases b with
  | none => rfl
  | some bb =>
    show (if F64.ltb bb.information_gain sp.information_gain = true
      then some sp else some bb).isSome = true
    split <;> rfl

theorem bestFold_isSome_of (l : List SplitPoint) :
    ∀ b : Option SplitPoint, b.isSome = true → (bestFold b l).isSome = true := by
  induction l with
  | nil => intro b h; exact h
  | cons c l ih =>
    intro b _
    rw [bestFold_cons]
    exact ih (bestStep b c) (bestStep_isSome b c)

theorem bestFold_isSome {l : List SplitPoint} (h : l ≠ []) :
    (bestFold none l).isSome = true := by
  cases l with
  | nil => exact absurd rfl h
  | cons c l =>
    rw [bestFold_cons, bestStep_none]
    exact bestFold_isSome_of l (some c) rfl

/-- The tracking invariant of the best-candidate fold, starting from an
already-adopted best `bb` with processed candidates `p₁ ++ bb :: p₂`:
the final best is a processed candidate, no processed candidate has a
strictly greater gain, and no candidate processed before the final best
has an equal gain. -/
theorem bestFold_inv (l : List SplitPoint) :
    ∀ (p₁ p₂ : List SplitPoint) (bb : SplitPoint),
      (∀ c ∈ p₁ ++ bb :: p₂,
        F64.ltb bb.information_gain c.information_gain = false) →
      (∀ c ∈ p₁, F64.beq c.information_gain bb.information_gain = false) →
      ∃ b q₁ q₂, bestFold (some bb) l = some b ∧
        (p₁ ++ bb :: p₂) ++ l = q₁ ++ b :: q₂ ∧
        (∀ c ∈ (p₁ ++ bb :: p₂) ++ l,
          F64.ltb b.information_gain c.information_gain = false) ∧
        (∀ c ∈ q₁, F64.beq c.information_gain b.information_gain = false) := by
  induction l with
  | nil =>
    intro p₁ p₂ bb hmax hne
    exact ⟨bb, p₁, p₂, rfl, by simp, by simpa using hmax, hne⟩
  | cons c l ih =>
    intro p₁ p₂ bb hmax hne
    rw [bestFold_cons]
    rcases hlt : F64.ltb bb.information_gain c.information_gain with _ | _
    · have hstep : bestStep (some bb) c = some bb := by
        show (if F64.ltb bb.information_gain c.information_gain = true
          then some c else some bb) = some bb
        rw [hlt]
        simp
      rw [hstep]
      have hmax2 : ∀ x ∈ p₁ ++ bb :: (p₂ ++ [c]),
          F64.ltb bb.information_gain x.information_gain = false := by
        intro x hx
        simp only [List.mem_append, List.mem_cons] at hx
        rcases hx with hx | hx | (hx | hx)
        · exact hmax x (by simp [hx])
        · exact hmax x (by simp [hx])
        · exact hmax x (by simp [hx])
        · simp at hx
          subst hx
          exact hlt
      obtain ⟨b, q₁, q₂, heq, hdec, hmax3, hne3⟩ := ih p₁ (p₂ ++ [c]) bb hmax2 hne
      refine ⟨b, q₁, q₂, heq, ?_, ?_, hne3⟩
      · rw [← hdec]
        simp
      · intro x hx
        apply hmax3
        simp only [List.mem_append, List.mem_cons] at hx ⊢
        tauto
    · have hstep : bestStep (some bb) c = some c := by
        show (if F64.ltb bb.information_gain c.information_gain = true
          then some c else some bb) = some c
        rw [hlt]
        simp
      rw [hstep]
      have hmax2 : ∀ x ∈ (p₁ ++ bb :: p₂) ++ c :: [],
          F64.ltb c.information_gain x.information_gain = false := by
        intro x hx
        simp only [List.mem_append, List.mem_cons] at hx
        rcases hx with (hx | hx | hx) | (hx | hx)
        · exact F64.ltb_false_of_below hlt (hmax x (by simp [hx]))
        · exact F64.ltb_false_of_below hlt (hmax x (by simp [hx]))
        · exact F64.ltb_false_of_below hlt (hmax x (by simp [hx]))
        · subst hx; exact F64.ltb_irrefl _
        · simp at hx
      have hne2 : ∀ x ∈ p₁ ++ bb :: p₂,
          F64.beq x.information_gain c.information_gain = false := by
        intro x hx
        exact F64.beq_false_of_below hlt (hmax x hx)
      obtain ⟨b, q₁, q₂, heq, hdec, hmax3, hne3⟩ := ih (p₁ ++ bb :: p₂) [] c hmax2 hne2
      refine ⟨b, q₁, q₂, heq, ?_, ?_, hne3⟩
      · rw [← hdec]
        simp
      · intro x hx
        apply hmax3
        simp only [List.mem_append, List.mem_cons] at hx ⊢
        tauto

/-- Starting from no adopted best, the fold result is a candidate with
no strictly greater competitor and no earlier equal-gain competitor. -/
theorem bestFold_split {l : List SplitPoint} {b : SplitPoint}
    (h : bestFold none l = some b) :
    ∃ l₁ l₂, l = l₁ ++ b :: l₂ ∧
      (∀ c ∈ l, F64.ltb b.information_gain c.information_gain = false) ∧
      (∀ c ∈ l₁, F64.beq c.information_gain b.information_gain = false) := by
  cases l with
  | nil => exact absurd h (by simp [bestFold])
  | cons c l =>
    rw [bestFold_cons, bestStep_none] at h
    have hmax0 : ∀ x ∈ ([] : List SplitPoint) ++ c :: [],
        F64.ltb c.information_gain x.information_gain = false := by
      intro x hx
      simp at hx
      subst hx
      exact F64.ltb_irrefl _
    obtain ⟨b', q₁, q₂, heq, hdec, hmax, hne⟩ :=
      bestFold_inv l [] [] c hmax0 (by simp)
    rw [h] at heq
    have hbb : b' = b := by injection heq.symm
    subst hbb
    refine ⟨q₁, q₂, ?_, ?_, hne⟩
    · simpa using hdec
    · intro x hx
      apply hmax
      simpa using hx

/-! ### The column scan -/

theorem scanTable_cons (t : Table) (c : ℕ) (cs : List ℕ) :
    scanTable t (c :: cs) = scanTable (stepTable t c) cs := rfl

theorem splitsAnn_map (crit : List F64 → F64) (imp : F64) (rows : ℕ)
    (t : Table) (c : ℕ) :
    (splitsAnn crit imp rows t c).map (fun e => e.2.2) =
      splitsOfColumn crit imp rows t c := by
  simp [splitsAnn, splitsOfColumn, List.map_map]

/-- The column scan of `build` equals the best-candidate fold over the
annotated candidate list, and its table is the scanned table. -/
theorem scanFold_eq (crit : List F64 → F64) (imp : F64) (rows : ℕ) :
    ∀ (cols : List ℕ) (b : Option SplitPoint) (t : Table),
      scanFold crit imp rows cols (b, t) =
        (bestFold b ((annSplits crit imp rows cols t).map (fun e => e.2.2)),
          scanTable t cols) := by
  intro cols
  induction cols with
  | nil => intro b t; rfl
  | cons c cs ih =>
    intro b t
    rcases h : t.hasNanCol c with _ | _
    · rw [scanFold, h, if_neg (by simp)]
      rw [ih, annSplits, h, if_neg (by simp), scanTable_cons]
      rw [stepTable, h, if_neg (by simp)]
      rw [List.map_append, bestFold_append, splitsAnn_map]
    · rw [scanFold, h, if_pos rfl]
      rw [ih, annSplits, h, if_pos rfl, scanTable_cons]
      rw [stepTable, h, if_pos rfl]
      simp only [List.nil_append]

/-- Every annotated candidate of the scan carries its column index, its
threshold is an observed value of that column among the rows of the
node, a strictly smaller value is also observed, and the column holds no
NaN. -/
theorem mem_annSplits (crit : List F64 → F64) (imp : F64) (rows : ℕ) :
    ∀ (cols : List ℕ) (t : Table) (e : ℕ × ℕ × SplitPoint),
      e ∈ annSplits crit imp rows cols t →
        e.2.2.column = e.1 ∧ e.1 ∈ cols ∧
        (∃ row ∈ t.rows, rowFeature row e.1 = e.2.2.threshold) ∧
        (∃ row ∈ t.rows, F64.ltb (rowFeature row e.1) e.2.2.threshold = true) ∧
        (∀ row ∈ t.rows, (rowFeature row e.1).isNan = false) := by
  intro cols
  induction cols with
  | nil => intro t e h; simp [annSplits] at h
  | cons c cs ih =>
    intro t e he
    rw [annSplits, List.mem_append] at he
    rcases he with he | he
    · rcases h : t.hasNanCol c with _ | _
      · rw [h, if_neg (by simp)] at he
        obtain ⟨rt, hrt, hf⟩ := List.mem_map.1 he
        obtain ⟨hmem, ⟨a, ha, hlt⟩, _⟩ :=
          thresholdsAux_mem ((t.sortRowsByFeature c).colVals c) 0 rt hrt
        have hperm := sortRowsByFeature_perm c t
        have hnan : ∀ row ∈ t.rows, (rowFeature row c).isNan = false := by
          intro row hrow
          have := h
          rw [Table.hasNanCol, List.any_eq_false] at this
          simpa using this _ (List.mem_map.2 ⟨row, hrow, rfl⟩)
        subst hf
        refine ⟨rfl, by simp, ?_, ?_, hnan⟩
        · obtain ⟨row, hrow, hrf⟩ := List.mem_map.1 hmem
          exact ⟨row, hperm.mem_iff.1 hrow, hrf⟩
        · obtain ⟨row, hrow, hrf⟩ := List.mem_map.1 ha
          exact ⟨row, hperm.mem_iff.1 hrow, by rw [hrf]; exact hlt⟩
      · rw [h, if_pos rfl] at he
        simp at he
    · obtain ⟨hcol, hcs, hthr, hlt, hnan⟩ := ih (stepTable t c) e he
      have hperm := stepTable_perm t c
      refine ⟨hcol, by simp [hcs], ?_, ?_, ?_⟩
      · obtain ⟨row, hrow, hrf⟩ := hthr
        exact ⟨row, hperm.mem_iff.1 hrow, hrf⟩
      · obtain ⟨row, hrow, hrf⟩ := hlt
        exact ⟨row, hperm.mem_iff.1 hrow, hrf⟩
      · intro row hrow
        exact hnan row (hperm.mem_iff.2 hrow)

/-! ### The materialized split -/

/-- When the winning threshold is an observed value of its NaN-free
column and some strictly smaller value is also observed, the
materialized sub-tables are non-empty, they partition the rows, the left
rows are below-or-equal the threshold and the right rows are
above-or-equal it (IEEE comparisons). -/
theorem splitChildren_facts (t : Table) (sp : SplitPoint)
    (hthr : ∃ row ∈ t.rows, rowFeature row sp.column = sp.threshold)
    (hlt : ∃ row ∈ t.rows, F64.ltb (rowFeature row sp.column) sp.threshold = true)
    (hnan : ∀ row ∈ t.rows, (rowFeature row sp.column).isNan = false) :
    (leftChild t sp).rows ≠ [] ∧ (rightChild t sp).rows ≠ [] ∧
    ((leftChild t sp).rows ++ (rightChild t sp).rows).Perm t.rows ∧
    (∀ row ∈ (leftChild t sp).rows,
      F64.leb (rowFeature row sp.column) sp.threshold = true) ∧
    (∀ row ∈ (rightChild t sp).rows,
      F64.leb sp.threshold (rowFeature row sp.column) = true) := by
  obtain ⟨t', ht'⟩ :
      ∃ u, (scanTable t (List.range t.ncols)).sortRowsByFeature sp.column = u :=
    ⟨_, rfl⟩
  obtain ⟨xs, hxsdef⟩ : ∃ v, t'.colVals sp.column = v := ⟨_, rfl⟩
  have hpermT : t'.rows.Perm t.rows := by
    rw [← ht']
    exact (sortRowsByFeature_perm sp.column _).trans (scanTable_perm _ t)
  have hsort : xs.Pairwise (fun a b => F64.leOF a b = true) := by
    rw [← hxsdef, ← ht']
    exact sorted_colVals_sortRowsByFeature sp.column _
  have hlen : xs.length = t'.rows.length := by
    rw [← hxsdef, Table.colVals, List.length_map]
  have hxsmap : xs = t'.rows.map (fun r => rowFeature r sp.column) := by
    rw [← hxsdef]
    rfl
  have hmem : sp.threshold ∈ xs := by
    obtain ⟨row, hrow, hrf⟩ := hthr
    rw [hxsmap]
    exact List.mem_map.2 ⟨row, hpermT.mem_iff.2 hrow, hrf⟩
  obtain ⟨rowv, hrowv, hrowvlt⟩ := hlt
  have hvmem : rowFeature rowv sp.column ∈ xs := by
    rw [hxsmap]
    exact List.mem_map.2 ⟨rowv, hpermT.mem_iff.2 hrowv, rfl⟩
  have hthreal : sp.threshold.isNan = false := F64.ltb_isNan_right hrowvlt
  obtain ⟨q, hq⟩ : ∃ q, sp.threshold = F64.val q := by
    cases hh : sp.threshold with
    | nan => rw [hh] at hthreal; simp [F64.isNan] at hthreal
    | val q => exact ⟨q, rfl⟩
  have hnanxs : ∀ v ∈ xs, v.isNan = false := by
    intro v hv
    rw [hxsmap] at hv
    obtain ⟨row, hrow, hrf⟩ := List.mem_map.1 hv
    rw [← hrf]
    exact hnan row (hpermT.mem_iff.1 hrow)
  obtain ⟨hidxlt0, hidxval⟩ := rustBinarySearch_spec hsort hmem
  have hidxpos : 1 ≤ rustBinarySearch xs sp.threshold :=
    rustBinarySearch_pos hsort hmem hvmem hrowvlt
  have hLrows : (leftChild t sp).rows =
      t'.rows.take (rustBinarySearch xs sp.threshold) := by
    rw [← hxsdef, ← ht']
    rfl
  have hRrows : (rightChild t sp).rows =
      t'.rows.drop (rustBinarySearch xs sp.threshold) := by
    rw [← hxsdef, ← ht']
    rfl
  obtain ⟨idx, hidx⟩ : ∃ n, rustBinarySearch xs sp.threshold = n := ⟨_, rfl⟩
  rw [hidx] at hidxlt0 hidxval hidxpos hLrows hRrows
  have hidxlt : idx < t'.rows.length := by rw [← hlen]; exact hidxlt0
  have hrowslen : 0 < t'.rows.length := by omega
  refine ⟨?_, ?_, ?_, ?_, ?_⟩
  · rw [hLrows]
    intro hcontra
    rw [List.take_eq_nil_iff] at hcontra
    rcases hcontra with hcontra | hcontra
    · omega
    · rw [hcontra] at hrowslen
      simp at hrowslen
  · rw [hRrows]
    intro hcontra
    rw [List.drop_eq_nil_iff] at hcontra
    omega
  · rw [hLrows, hRrows, List.take_append_drop]
    exact hpermT
  · intro row hrow
    rw [hLrows] at hrow
    obtain ⟨j, hj, hjeq⟩ := List.mem_iff_getElem.1 hrow
    rw [List.length_take] at hj
    have hjlen : j < idx := lt_of_lt_of_le hj (min_le_left _ _)
    have hjlt : j < t'.rows.length := lt_of_lt_of_le hj (min_le_right _ _)
    have hrowj : row = t'.rows[j] := by
      rw [← hjeq]
      exact List.getElem_take ..
    have hxj : rowFeature row sp.column = xs.getD j F64.nan := by
      rw [hrowj, hxsmap, List.getD_eq_getElem _ _ (by simpa using hjlt),
        List.getElem_map]
    have hle2 : F64.leOF (xs.getD j F64.nan) (xs.getD idx F64.nan) = true :=
      sorted_leOF_getD hsort hjlen hidxlt0
    rw [hidxval, hq] at hle2
    obtain ⟨p, hp, hpq⟩ := F64.leOF_val_right hle2
    rw [hxj, hp, hq]
    exact F64.leb_val_val p q hpq
  · intro row hrow
    rw [hRrows] at hrow
    obtain ⟨j, hj, hjeq⟩ := List.mem_iff_getElem.1 hrow
    rw [List.length_drop] at hj
    have hjlen : idx + j < t'.rows.length := by omega
    have hrowj : row = t'.rows[idx + j] := by
      rw [← hjeq]
      exact (List.getElem_drop ..)
    have hxj : rowFeature row sp.column = xs.getD (idx + j) F64.nan := by
      rw [hrowj, hxsmap, List.getD_eq_getElem _ _ (by simpa using hjlen),
        List.getElem_map]
    rcases Nat.eq_zero_or_pos j with hj0 | hjpos
    · subst hj0
      rw [hxj]
      have hgd : xs.getD (idx + 0) F64.nan = sp.threshold := by
        simpa using hidxval
      rw [hgd, hq]
      exact F64.leb_val_val q q (le_refl q)
    · have hle2 : F64.leOF (xs.getD idx F64.nan) (xs.getD (idx + j) F64.nan) = true :=
        sorted_leOF_getD hsort (by omega) (by rw [hlen]; omega)
      rw [hidxval, hq] at hle2
      have hreal : (xs.getD (idx + j) F64.nan).isNan = false := by
        apply hnanxs
        rw [List.getD_eq_getElem _ _ (by rw [hlen]; omega)]
        exact List.getElem_mem ..
      obtain ⟨p, hp, hpq⟩ := F64.leOF_val_left hle2 hreal
      rw [hxj, hp, hq]
      exact F64.leb_val_val q p hpq

/-! ### The build invariant -/

/-- Every successful `build` satisfies the (non-strict) partition
invariant at every internal node. -/
theorem build_buildInv (crit : List F64 → F64) (cls : Bool) :
    ∀ (fuel : ℕ) (t : Table) (nd : Node),
      build crit cls fuel t = some nd → BuildInv false t nd := by
  intro fuel
  induction fuel with
  | zero => intro t nd h; simp [build] at h
  | succ fuel ih =>
    intro t nd h
    rw [build] at h
    by_cases hsing : t.isSingleTarget
    · rw [if_pos hsing] at h
      rcases hh : t.target.head? with _ | y
      · rw [hh] at h
        simp at h
      · rw [hh] at h
        simp at h
        rw [← h]
        exact BuildInv.leaf t y
    · rw [if_neg hsing] at h
      rcases hb : (scanFold crit (crit t.target) t.target.length
          (List.range t.ncols) (none, t)).1 with _ | sp
      · rw [hb] at h
        simp at h
      · rw [hb] at h
        have h2 : (match build crit cls fuel (leftChild t sp),
              build crit cls fuel (rightChild t sp) with
            | some l, some r => some (Node.node
                (if cls then mostFrequent t.target else mean t.target) sp l r)
            | _, _ => none) = some nd := h
        rcases hl : build crit cls fuel (leftChild t sp) with _ | l
        · rw [hl] at h2
          simp at h2
        · rcases hr : build crit cls fuel (rightChild t sp) with _ | r
          · rw [hl, hr] at h2
            simp at h2
          · rw [hl, hr] at h2
            simp at h2
            rw [← h2]
            rw [scanFold_eq crit (crit t.target) t.target.length
              (List.range t.ncols) none t] at hb
            simp only at hb
            obtain ⟨l₁, l₂, hdec, hmax, hne⟩ := bestFold_split hb
            have hmemsp : sp ∈ (annSplits crit (crit t.target) t.target.length
                (List.range t.ncols) t).map (fun e => e.2.2) := by
              rw [hdec]
              simp
            obtain ⟨e, he, hesp⟩ := List.mem_map.1 hmemsp
            obtain ⟨hcol, _, hthr, hltf, hnanf⟩ :=
              mem_annSplits crit (crit t.target) t.target.length
                (List.range t.ncols) t e he
            rw [hesp] at hcol hthr hltf
            rw [← hcol] at hthr hltf
            have hnanf2 : ∀ row ∈ t.rows, (rowFeature row sp.column).isNan = false := by
              rw [hcol]
              exact hnanf
            obtain ⟨hL, hR, hperm, hle, hge⟩ := splitChildren_facts t sp hthr hltf hnanf2
            exact BuildInv.node t _ sp l r hthr hL hR hperm hle
              (fun row hrow => hge row hrow) (ih _ l hl) (ih _ r hr)

/-! ### Claim theorems -/

/-- Claim C1 (amended): for every fitted tree and every internal node in
it, the recorded threshold equals some training row's feature value in
the split column, every row of the left sub-table satisfies
`feature[column] <= threshold`, every row of the right sub-table
satisfies `feature[column] >= threshold` (not strictly greater: the row
whose value equals the threshold starts the right sub-table), and the
two sub-tables are non-empty and together carry exactly the rows of the
node. -/
theorem claim_C1 (crit : List F64 → F64) (cls : Bool) (fuel : ℕ) (t : Table)
    (nd : Node) (h : build crit cls fuel t = some nd) : BuildInv false t nd :=
  build_buildInv crit cls fuel t nd h

/-- Witness for C1 at the end-to-end example table. -/
theorem claim_C1_witness : BuildInv false exTable exTree.root :=
  claim_C1 Mse.calculate false 5 exTable exTree.root (by with_unfolding_all rfl)

/-- Counterexample to C1 as stated: on the example table the fitted root
has threshold 3 and its right sub-table contains the row with feature
value 3, which does not satisfy `feature > threshold`. -/
theorem claim_C1_counterexample :
    build Mse.calculate false 5 exTable = some exTree.root ∧
    ¬ BuildInv true exTable (Node.node (F64.val 5)
      ⟨F64.val 25, 0, F64.val 3⟩ (Node.leaf (F64.val 0)) (Node.leaf (F64.val 10))) := by
  constructor
  · with_unfolding_all rfl
  · intro h
    cases h with
    | node _ _ _ _ _ hthr hL hR hperm hle hge hl hr =>
      have hm : ([F64.val 3], F64.val 10) ∈
          (rightChild exTable ⟨F64.val 25, 0, F64.val 3⟩).rows := by
        with_unfolding_all decide
      have h4 : F64.ltb (F64.val 3) (F64.val 3) = true := hge ([F64.val 3], F64.val 10) hm
      rw [F64.ltb_irrefl] at h4
      exact Bool.false_ne_true h4

/-- Claim C2 (amended): on the table with feature column `[1,2,3,4]` and
target `[0,0,10,10]`, MSE criterion, `classification = false`, the
fitted tree's root splits on column 0 at threshold 3 with leaf labels 0
and 10, `predict([2])` gives 0, `predict([4])` gives 10 — but
`predict([3])` gives 0 (not 10): `3 <= 3` descends left. -/
theorem claim_C2 :
    Tree.fit Mse.calculate false exTable = some exTree ∧
    exTree = ⟨Node.node (F64.val 5) ⟨F64.val 25, 0, F64.val 3⟩
      (Node.leaf (F64.val 0)) (Node.leaf (F64.val 10))⟩ ∧
    Tree.predict exTree [F64.val 2] = some (F64.val 0) ∧
    Tree.predict exTree [F64.val 3] = some (F64.val 0) ∧
    Tree.predict exTree [F64.val 4] = some (F64.val 10) := by
  refine ⟨by with_unfolding_all rfl, rfl, by with_unfolding_all rfl,
    by with_unfolding_all rfl, by with_unfolding_all rfl⟩

/-- Counterexample to C2 as stated: `predict([3])` returns 0, not 10,
because the walk compares `3 <= 3` and descends left. -/
theorem claim_C2_counterexample :
    Tree.fit Mse.calculate false exTable = some exTree ∧
    Tree.predict exTree [F64.val 3] = some (F64.val 0) ∧
    some (F64.val 0) ≠ some (F64.val 10) := by
  refine ⟨by with_unfolding_all rfl, by with_unfolding_all rfl, by decide⟩

/-- Claim C5: for every table whose target values are all equal (IEEE
scalar equality, hence in particular a non-empty target), `fit` returns
a single leaf labelled with that common value and `predict` returns it
on any input. -/
theorem claim_C5 (crit : List F64 → F64) (cls : Bool) (t : Table) (y : F64)
    (ys : List F64) (hty : t.target = y :: ys)
    (hall : ys.all (F64.beq y) = true) :
    Tree.fit crit cls t = some ⟨Node.leaf y⟩ ∧
    ∀ xs : List F64, Tree.predict ⟨Node.leaf y⟩ xs = some y := by
  constructor
  · rw [Tree.fit, build]
    have hsing : t.isSingleTarget = true := by
      rw [Table.isSingleTarget, hty]
      exact hall
    rw [if_pos hsing, hty]
    rfl
  · intro xs
    rfl

/-- Witness for C5 at a single-row table. -/
theorem claim_C5_witness :
    Table.target ⟨1, [([F64.val 1], F64.val 7)]⟩ = F64.val 7 :: [] ∧
    Tree.fit Mse.calculate false ⟨1, [([F64.val 1], F64.val 7)]⟩ =
      some ⟨Node.leaf (F64.val 7)⟩ ∧
    Tree.predict ⟨Node.leaf (F64.val 7)⟩ [F64.val 5] = some (F64.val 7) := by
  refine ⟨rfl, ?_, ?_⟩
  · exact (claim_C5 Mse.calculate false ⟨1, [([F64.val 1], F64.val 7)]⟩
      (F64.val 7) [] rfl rfl).1
  · exact (claim_C5 Mse.calculate false ⟨1, [([F64.val 1], F64.val 7)]⟩
      (F64.val 7) [] rfl rfl).2 [F64.val 5]

/-- Claim C6: for every fitted node and every feature vector long enough
for each column referenced on the path taken, `predict` performs exactly
the walk the spec describes — compare `feature_vector[split.column]`
with the threshold, descend left on less-or-equal and right otherwise —
and returns the reached leaf's label. -/
theorem claim_C6 (nd : Node) (xs : List F64) (h : pathFits nd xs = true) :
    Node.predict nd xs = some (specDescend nd xs) := by
  induction nd with
  | leaf lab => rfl
  | node lab sp l r ihl ihr =>
    rw [pathFits] at h
    simp only [Bool.and_eq_true, decide_eq_true_eq] at h
    obtain ⟨hcol, hrest⟩ := h
    have hq : xs.get? sp.column = some (xs.getD sp.column F64.nan) := by
      rw [List.get?_eq_getElem?, List.getElem?_eq_getElem hcol,
        List.getD_eq_getElem _ _ hcol]
    rcases hle : F64.leb (xs.getD sp.column F64.nan) sp.threshold with _ | _
    · rw [hle] at hrest
      simp only [Bool.false_eq_true, if_false] at hrest
      rw [Node.predict, hq]
      show (if F64.leb (xs.getD sp.column F64.nan) sp.threshold
        then Node.predict l xs else Node.predict r xs) =
          some (specDescend (Node.node lab sp l r) xs)
      rw [specDescend, hle]
      have hc : ¬ (false = true) := by simp
      rw [if_neg hc, if_neg hc]
      exact ihr hrest
    · rw [hle] at hrest
      simp only [if_true] at hrest
      rw [Node.predict, hq]
      show (if F64.leb (xs.getD sp.column F64.nan) sp.threshold
        then Node.predict l xs else Node.predict r xs) =
          some (specDescend (Node.node lab sp l r) xs)
      rw [specDescend, hle]
      rw [if_pos rfl, if_pos rfl]
      exact ihl hrest

/-- Witness for C6 at the example tree. -/
theorem claim_C6_witness :
    pathFits exTree.root [F64.val 2] = true ∧
    Node.predict exTree.root [F64.val 2] =
      some (specDescend exTree.root [F64.val 2]) := by
  refine ⟨by with_unfolding_all rfl, ?_⟩
  exact claim_C6 exTree.root [F64.val 2] (by with_unfolding_all rfl)

/-- Claim C9: if the purity stop did not trigger and the candidate scan
enumerates no candidate, `build` faults (returns `none`, the model of
the `expect` panic) instead of producing a tree; conversely, whenever at
least one candidate is enumerated, the best-split lookup succeeds. -/
theorem claim_C9 :
    (∀ (crit : List F64 → F64) (cls : Bool) (fuel : ℕ) (t : Table),
      t.isSingleTarget = false →
      annSplits crit (crit t.target) t.target.length (List.range t.ncols) t = [] →
      build crit cls fuel t = none) ∧
    (∀ (crit : List F64 → F64) (imp : F64) (rows : ℕ) (t : Table),
      annSplits crit imp rows (List.range t.ncols) t ≠ [] →
      (scanFold crit imp rows (List.range t.ncols) (none, t)).1.isSome = true) := by
  constructor
  · intro crit cls fuel t hsing hann
    cases fuel with
    | zero => rfl
    | succ fuel =>
      rw [build, if_neg (by simp [hsing])]
      rw [scanFold_eq, hann]
      rfl
  · intro crit imp rows t hann
    rw [scanFold_eq]
    show (bestFold none ((annSplits crit imp rows
      (List.range t.ncols) t).map (fun e => e.2.2))).isSome = true
    apply bestFold_isSome
    intro hc
    rw [List.map_eq_nil_iff] at hc
    exact hann hc

/-- Witness for C9: a table with differing targets whose only column is
all-NaN makes `build` fault, while the end-to-end example table has
candidates and a successful lookup. -/
theorem claim_C9_witness :
    Table.isSingleTarget exTable9 = false ∧
    annSplits Mse.calculate (Mse.calculate exTable9.target)
      exTable9.target.length (List.range exTable9.ncols) exTable9 = [] ∧
    build Mse.calculate false 3 exTable9 = none ∧
    annSplits Mse.calculate (Mse.calculate exTable.target)
      exTable.target.length (List.range exTable.ncols) exTable ≠ [] ∧
    (scanFold Mse.calculate (Mse.calculate exTable.target)
      exTable.target.length (List.range exTable.ncols)
      (none, exTable)).1.isSome = true := by
  refine ⟨by with_unfolding_all rfl, by with_unfolding_all rfl, ?_,
    by with_unfolding_all decide, ?_⟩
  · exact claim_C9.1 Mse.calculate false 3 exTable9 (by with_unfolding_all rfl)
      (by with_unfolding_all rfl)
  · exact claim_C9.2 Mse.calculate (Mse.calculate exTable.target)
      exTable.target.length exTable (by with_unfolding_all decide)

/-- Claim C10: whenever `build` returns at a node whose targets are not
all equal, the returned node is internal — the best-so-far comparison
accepts the first candidate unconditionally (`map_or(true, ..)`), so a
split is materialized even when its gain is zero, negative or NaN, and a
non-empty candidate list always yields an adopted best; the builder
never falls back to a leaf. -/
theorem claim_C10 :
    (∀ (crit : List F64 → F64) (cls : Bool) (fuel : ℕ) (t : Table) (nd : Node),
      build crit cls fuel t = some nd → t.isSingleTarget = false →
      ∃ lab sp l r, nd = Node.node lab sp l r) ∧
    (∀ sp : SplitPoint, bestStep none sp = some sp) ∧
    (∀ (sp : SplitPoint) (l : List SplitPoint),
      (bestFold none (sp :: l)).isSome = true) := by
  refine ⟨?_, fun sp => rfl, fun sp l => bestFold_isSome (by simp)⟩
  intro crit cls fuel t nd h hsing
  cases fuel with
  | zero => simp [build] at h
  | succ fuel =>
    rw [build, if_neg (by simp [hsing])] at h
    rcases hb : (scanFold crit (crit t.target) t.target.length
        (List.range t.ncols) (none, t)).1 with _ | sp
    · rw [hb] at h
      simp at h
    · rw [hb] at h
      have h2 : (match build crit cls fuel (leftChild t sp),
            build crit cls fuel (rightChild t sp) with
          | some l, some r => some (Node.node
              (if cls then mostFrequent t.target else mean t.target) sp l r)
          | _, _ => none) = some nd := h
      rcases hl : build crit cls fuel (leftChild t sp) with _ | l <;> rw [hl] at h2
      · simp at h2
      · rcases hr : build crit cls fuel (rightChild t sp) with _ | r <;> rw [hr] at h2
        · simp at h2
        · simp at h2
          exact ⟨_, sp, l, r, h2.symm⟩

/-- Witness for C10 at the example table, including the unconditional
acceptance of a NaN-gain first candidate. -/
theorem claim_C10_witness :
    Table.isSingleTarget exTable = false ∧
    (∃ lab sp l r, exTree.root = Node.node lab sp l r) ∧
    bestStep none ⟨F64.nan, 0, F64.nan⟩ = some ⟨F64.nan, 0, F64.nan⟩ ∧
    (bestFold none [⟨F64.nan, 0, F64.nan⟩]).isSome = true := by
  refine ⟨by with_unfolding_all rfl, ?_, claim_C10.2.1 _, claim_C10.2.2 _ _⟩
  exact claim_C10.1 Mse.calculate false 5 exTable exTree.root
    (by with_unfolding_all rfl) (by with_unfolding_all rfl)

/-- Claim C7: a feature column holding a NaN among the current rows is
skipped whole for that node's candidate search (the scan state is left
untouched: no sort, no candidates), and the check is re-made afresh per
node: on `exTable7` the root skips column 1 (all its candidates come
from column 0) yet the left child splits on column 1, whose partition
holds no NaN. -/
theorem claim_C7 :
    (∀ (crit : List F64 → F64) (imp : F64) (rows : ℕ) (cs : List ℕ)
        (best : Option SplitPoint) (t : Table) (c : ℕ),
      t.hasNanCol c = true →
      scanFold crit imp rows (c :: cs) (best, t) =
        scanFold crit imp rows cs (best, t) ∧
      annSplits crit imp rows (c :: cs) t = annSplits crit imp rows cs t) ∧
    Tree.fit Mse.calculate false exTable7 = some exTree7 ∧
    (∀ e ∈ annSplits Mse.calculate (Mse.calculate exTable7.target)
        exTable7.target.length (List.range exTable7.ncols) exTable7, e.1 = 0) ∧
    exTree7.root = Node.node (F64.val (8/3))
      ⟨F64.val (169/18), 0, F64.val 2⟩
      (Node.node (F64.val (1/2)) ⟨F64.val (1/4), 1, F64.val 6⟩
        (Node.leaf (F64.val 0)) (Node.leaf (F64.val 1)))
      (Node.leaf (F64.val 7)) := by
  refine ⟨?_, by with_unfolding_all rfl, by with_unfolding_all decide, rfl⟩
  intro crit imp rows cs best t c h
  constructor
  · rw [scanFold, h, if_pos rfl]
  · rw [annSplits, h, if_pos rfl, stepTable, h, if_pos rfl]
    simp

/-- Witness for C7: column 1 of `exTable7` holds a NaN, and scanning it
changes nothing. -/
theorem claim_C7_witness :
    Table.hasNanCol exTable7 1 = true ∧
    scanFold Mse.calculate (F64.val 0) 3 [1] (none, exTable7) =
      scanFold Mse.calculate (F64.val 0) 3 [] (none, exTable7) ∧
    annSplits Mse.calculate (F64.val 0) 3 [1] exTable7 =
      annSplits Mse.calculate (F64.val 0) 3 [] exTable7 := by
  refine ⟨by with_unfolding_all rfl, ?_, ?_⟩
  · exact (claim_C7.1 Mse.calculate (F64.val 0) 3 [] none exTable7 1
      (by with_unfolding_all rfl)).1
  · exact (claim_C7.1 Mse.calculate (F64.val 0) 3 [] none exTable7 1
      (by with_unfolding_all rfl)).2

/-! ### The MSE criterion versus exact rational arithmetic -/

theorem fsum_map_val (l : List ℚ) : ∀ a : ℚ,
    List.foldl F64.add (F64.val a) (l.map F64.val) = F64.val (a + l.sum) := by
  induction l with
  | nil =>
    intro a
    simp
  | cons x l ih =>
    intro a
    rw [List.map_cons, List.foldl_cons]
    show List.foldl F64.add (F64.val (a + x)) (l.map F64.val) =
      F64.val (a + (x :: l).sum)
    rw [ih (a + x), List.sum_cons, add_assoc]

theorem fsum_eq (l : List ℚ) : F64.fsum (l.map F64.val) = F64.val l.sum := by
  rw [F64.fsum, fsum_map_val l 0, zero_add]

theorem length_cast_ne_zero {l : List ℚ} (h : l ≠ []) :
    ((l.length : ℚ)) ≠ 0 := by
  intro h0
  rw [Nat.cast_eq_zero] at h0
  exact h (List.length_eq_zero.1 h0)

theorem mean_map_val (l : List ℚ) (h : l ≠ []) :
    mean (l.map F64.val) = F64.val (l.sum / l.length) := by
  rw [mean, fsum_eq, List.length_map]
  show (if ((l.length : ℚ)) = 0 then F64.nan
    else F64.val (l.sum / l.length)) = F64.val (l.sum / l.length)
  rw [if_neg (length_cast_ne_zero h)]

/-- Claim C8: for every non-empty sequence of (real) target values, the
MSE criterion returns exactly the average squared deviation from the
arithmetic mean, computed in exact rational arithmetic; the model is a
pure function, so it has no side effects. -/
theorem claim_C8 (l : List ℚ) (h : l ≠ []) :
    Mse.calculate (l.map F64.val) = F64.val (mseSpecQ l) := by
  rw [Mse.calculate, mean_map_val l h, List.map_map]
  have hcomp : ((fun y => F64.mul (F64.sub y (F64.val (l.sum / l.length)))
      (F64.sub y (F64.val (l.sum / l.length)))) ∘ F64.val) =
      F64.val ∘ (fun y : ℚ => (y - l.sum / l.length) ^ 2) := by
    funext y
    show F64.val ((y - l.sum / l.length) * (y - l.sum / l.length)) =
      F64.val ((y - l.sum / l.length) ^ 2)
    rw [pow_two]
  rw [hcomp, ← List.map_map, fsum_eq, List.length_map]
  show (if ((l.length : ℚ)) = 0 then F64.nan
    else F64.val ((l.map fun y => (y - l.sum / l.length) ^ 2).sum / l.length)) =
    F64.val (mseSpecQ l)
  rw [if_neg (length_cast_ne_zero h), mseSpecQ]

/-- Witness for C8 at the target values 1, 2, 3 (mean 2, MSE 2/3). -/
theorem claim_C8_witness :
    ([1, 2, 3] : List ℚ) ≠ [] ∧
    Mse.calculate (([1, 2, 3] : List ℚ).map F64.val) =
      F64.val (mseSpecQ [1, 2, 3]) ∧
    Mse.calculate [F64.val 1, F64.val 2, F64.val 3] = F64.val (2/3) := by
  refine ⟨by simp, claim_C8 [1, 2, 3] (by simp), by with_unfolding_all rfl⟩

/-! ### The partition index versus the first not-less index -/

/-- When the key occurs exactly once in the sorted NaN-free column, the
std binary search lands on the first index whose value is not less than
the key. -/
theorem rustBinarySearch_eq_firstGeIdx {xs : List F64} {key : F64}
    (hs : xs.Pairwise (fun a b => F64.leOF a b = true))
    (hmem : key ∈ xs)
    (hnan : ∀ v ∈ xs, v.isNan = false)
    (hcount : xs.count key = 1) :
    rustBinarySearch xs key = firstGeIdx xs key := by
  obtain ⟨hlt, hval⟩ := rustBinarySearch_spec hs hmem
  have hkreal : key.isNan = false := hnan key hmem
  obtain ⟨q, hq⟩ : ∃ q, key = F64.val q := by
    cases hh : key with
    | nan => rw [hh] at hkreal; simp [F64.isNan] at hkreal
    | val q => exact ⟨q, rfl⟩
  obtain ⟨i, hidef⟩ : ∃ n, rustBinarySearch xs key = n := ⟨_, rfl⟩
  rw [hidef] at hlt hval ⊢
  rw [firstGeIdx]
  apply le_antisymm
  · apply List.le_findIdx_of_not hlt
    intro j hji
    have hle2 := sorted_leOF_getD hs hji hlt
    rw [hval, hq] at hle2
    obtain ⟨p, hp, hple⟩ := F64.leOF_val_right hle2
    have hpq : p < q := by
      rcases lt_or_eq_of_le hple with hplt | hpeq
      · exact hplt
      · exfalso
        subst hpeq
        have hj2 : key ∈ xs.take i := by
          apply List.mem_iff_getElem.2
          refine ⟨j, ?_, ?_⟩
          · rw [List.length_take]
            exact lt_min hji (lt_trans hji hlt)
          · rw [List.getElem_take]
            rw [← List.getD_eq_getElem xs F64.nan (lt_trans hji hlt), hp, hq]
        have hi2 : key ∈ xs.drop i := by
          apply List.mem_iff_getElem.2
          refine ⟨0, ?_, ?_⟩
          · rw [List.length_drop]
            omega
          · rw [List.getElem_drop]
            rw [← List.getD_eq_getElem xs F64.nan (by omega : i + 0 < xs.length)]
            simpa using hval
        have hc1 : 0 < (xs.take i).count key := List.count_pos_iff.2 hj2
        have hc2 : 0 < (xs.drop i).count key := List.count_pos_iff.2 hi2
        have := List.count_append key (xs.take i) (xs.drop i)
        rw [List.take_append_drop] at this
        omega
    show Bool.not (F64.ltb (xs.get ⟨j, lt_trans hji hlt⟩) key) = false
    rw [List.get_eq_getElem,
      ← List.getD_eq_getElem xs F64.nan (lt_trans hji hlt), hp, hq]
    have hltb : F64.ltb (F64.val p) (F64.val q) = true := (F64.ltb_val_val p q).2 hpq
    rw [hltb]
    rfl
  · by_contra hgt
    push_neg at hgt
    have hnot := List.not_of_lt_findIdx hgt
    rw [← List.getD_eq_getElem xs F64.nan
      (lt_of_lt_of_le hgt (List.findIdx_le_length _)), hval] at hnot
    rw [F64.ltb_irrefl] at hnot
    simp at hnot

/-- Claim C4 (amended): the builder re-sorts by the winning column and
partitions at the index returned by the standard binary search for the
threshold — an index whose value equals the threshold, which coincides
with the index of the first row whose value is not less than the
threshold whenever the threshold value occurs exactly once in the
column (with duplicated threshold values the std search may land on a
later equal element). -/
theorem claim_C4 (t : Table) (sp : SplitPoint)
    (hthr : sp.threshold ∈ sortedSplitCol t sp)
    (hnan : ∀ v ∈ sortedSplitCol t sp, v.isNan = false) :
    (leftChild t sp).rows =
      ((scanTable t (List.range t.ncols)).sortRowsByFeature sp.column).rows.take
        (rustBinarySearch (sortedSplitCol t sp) sp.threshold) ∧
    (rightChild t sp).rows =
      ((scanTable t (List.range t.ncols)).sortRowsByFeature sp.column).rows.drop
        (rustBinarySearch (sortedSplitCol t sp) sp.threshold) ∧
    (sortedSplitCol t sp).getD
      (rustBinarySearch (sortedSplitCol t sp) sp.threshold) F64.nan =
      sp.threshold ∧
    ((sortedSplitCol t sp).count sp.threshold = 1 →
      rustBinarySearch (sortedSplitCol t sp) sp.threshold =
        firstGeIdx (sortedSplitCol t sp) sp.threshold) := by
  have hs : (sortedSplitCol t sp).Pairwise (fun a b => F64.leOF a b = true) :=
    sorted_colVals_sortRowsByFeature sp.column _
  exact ⟨rfl, rfl, (rustBinarySearch_spec hs hthr).2,
    fun hcount => rustBinarySearch_eq_firstGeIdx hs hthr hnan hcount⟩

/-- Witness for C4 at the end-to-end example, whose threshold 3 occurs
exactly once in the column. -/
theorem claim_C4_witness :
    F64.val 3 ∈ sortedSplitCol exTable ⟨F64.val 25, 0, F64.val 3⟩ ∧
    (∀ v ∈ sortedSplitCol exTable ⟨F64.val 25, 0, F64.val 3⟩,
      v.isNan = false) ∧
    (sortedSplitCol exTable ⟨F64.val 25, 0, F64.val 3⟩).count (F64.val 3) = 1 ∧
    (sortedSplitCol exTable ⟨F64.val 25, 0, F64.val 3⟩).getD
      (rustBinarySearch (sortedSplitCol exTable ⟨F64.val 25, 0, F64.val 3⟩)
        (F64.val 3)) F64.nan = F64.val 3 ∧
    rustBinarySearch (sortedSplitCol exTable ⟨F64.val 25, 0, F64.val 3⟩)
        (F64.val 3) =
      firstGeIdx (sortedSplitCol exTable ⟨F64.val 25, 0, F64.val 3⟩)
        (F64.val 3) := by
  have h1 : F64.val 3 ∈ sortedSplitCol exTable ⟨F64.val 25, 0, F64.val 3⟩ := by
    with_unfolding_all decide
  have h2 : ∀ v ∈ sortedSplitCol exTable ⟨F64.val 25, 0, F64.val 3⟩,
      v.isNan = false := by
    with_unfolding_all decide
  have h3 : (sortedSplitCol exTable ⟨F64.val 25, 0, F64.val 3⟩).count
      (F64.val 3) = 1 := by
    with_unfolding_all rfl
  have hmain := claim_C4 exTable ⟨F64.val 25, 0, F64.val 3⟩ h1 h2
  exact ⟨h1, h2, h3, hmain.2.2.1, hmain.2.2.2 h3⟩

/-- Counterexample to C4 as stated: on the column `[1,3,3,3]` with
winning threshold 3, the builder partitions at index 3 (the std binary
search lands on the last equal element), not at index 1, the first row
whose value is not less than the threshold. -/
theorem claim_C4_counterexample :
    (scanFold Mse.calculate (Mse.calculate exTable4.target)
      exTable4.target.length (List.range exTable4.ncols)
      (none, exTable4)).1 = some ⟨F64.val (75/4), 0, F64.val 3⟩ ∧
    sortedSplitCol exTable4 ⟨F64.val (75/4), 0, F64.val 3⟩ =
      [F64.val 1, F64.val 3, F64.val 3, F64.val 3] ∧
    rustBinarySearch (sortedSplitCol exTable4 ⟨F64.val (75/4), 0, F64.val 3⟩)
      (F64.val 3) = 3 ∧
    (leftChild exTable4 ⟨F64.val (75/4), 0, F64.val 3⟩).rows.length = 3 ∧
    firstGeIdx (sortedSplitCol exTable4 ⟨F64.val (75/4), 0, F64.val 3⟩)
      (F64.val 3) = 1 ∧
    (3 : ℕ) ≠ 1 := by
  refine ⟨by with_unfolding_all rfl, by with_unfolding_all rfl,
    by with_unfolding_all rfl, by with_unfolding_all rfl,
    by with_unfolding_all rfl, by decide⟩

/-! ### The candidate list in scan order -/

theorem map_eq_append_cons {α β : Type} (f : α → β) :
    ∀ {l : List α} {l₁ l₂ : List β} {b : β}, l.map f = l₁ ++ b :: l₂ →
      ∃ a₁ e a₂, l = a₁ ++ e :: a₂ ∧ f e = b ∧ a₁.map f = l₁ ∧ a₂.map f = l₂ := by
  intro l
  induction l with
  | nil =>
    intro l₁ l₂ b h
    rw [List.map_nil] at h
    exact absurd h.symm (List.append_ne_nil_of_right_ne_nil _ (by simp))
  | cons x l ih =>
    intro l₁ l₂ b h
    cases l₁ with
    | nil =>
      rw [List.map_cons, List.nil_append] at h
      simp only [List.cons.injEq] at h
      exact ⟨[], x, l, by simp, h.1, rfl, h.2⟩
    | cons y l₁ =>
      rw [List.map_cons, List.cons_append] at h
      simp only [List.cons.injEq] at h
      obtain ⟨a₁, e, a₂, h1, h2, h3, h4⟩ := ih h.2
      refine ⟨x :: a₁, e, a₂, ?_, h2, ?_, h4⟩
      · rw [h1, List.cons_append]
      · rw [List.map_cons, h3, h.1]

/-- The annotated candidates appear in strict scan order: ascending
column index, then ascending boundary row within a column. -/
theorem annSplits_lex (crit : List F64 → F64) (imp : F64) (rows : ℕ) :
    ∀ (cols : List ℕ) (t : Table), cols.Pairwise (· < ·) →
      (annSplits crit imp rows cols t).Pairwise entLex := by
  intro cols
  induction cols with
  | nil => intro t _; simp [annSplits]
  | cons c cs ih =>
    intro t hp
    rw [annSplits, List.pairwise_append]
    refine ⟨?_, ih (stepTable t c) (List.Pairwise.of_cons hp), ?_⟩
    · rcases h : t.hasNanCol c with _ | _
      · rw [if_neg (by simp), splitsAnn, List.pairwise_map]
        apply List.Pairwise.imp ?_ (thresholdsAux_pairwise _ 0)
        intro a b hab
        exact Or.inr ⟨rfl, hab⟩
      · rw [if_pos rfl]
        simp
    · intro e he e' he'
      have hcol : e.1 = c := by
        rcases h : t.hasNanCol c with _ | _
        · rw [h, if_neg (by simp), splitsAnn] at he
          obtain ⟨rt, _, hf⟩ := List.mem_map.1 he
          rw [← hf]
        · rw [h, if_pos rfl] at he
          simp at he
      have hcs : e'.1 ∈ cs :=
        (mem_annSplits crit imp rows cs (stepTable t c) e' he').2.1
      left
      rw [hcol]
      exact List.rel_of_pairwise_cons hp hcs

/-- Every annotated candidate was computed on some scan-time table `u`
(a permutation of the node's rows): its boundary and threshold come from
the threshold enumeration of `u` sorted by its column, and its stored
gain is exactly the information-gain formula over the targets of that
sorted table. -/
theorem mem_annSplits_form (crit : List F64 → F64) (imp : F64) (rows : ℕ) :
    ∀ (cols : List ℕ) (t : Table) (e : ℕ × ℕ × SplitPoint),
      e ∈ annSplits crit imp rows cols t →
      ∃ u : Table, u.rows.Perm t.rows ∧
        (e.2.1, e.2.2.threshold) ∈
          Table.thresholds ((u.sortRowsByFeature e.1).colVals e.1) ∧
        e.2.2 = SplitPoint.mk (gainAt crit imp rows
            (Table.target (u.sortRowsByFeature e.1)) e.2.1)
          e.1 e.2.2.threshold := by
  intro cols
  induction cols with
  | nil => intro t e h; simp [annSplits] at h
  | cons c cs ih =>
    intro t e he
    rw [annSplits, List.mem_append] at he
    rcases he with he | he
    · rcases h : t.hasNanCol c with _ | _
      · rw [h, if_neg (by simp), splitsAnn] at he
        obtain ⟨rt, hrt, hf⟩ := List.mem_map.1 he
        refine ⟨t, List.Perm.refl _, ?_, ?_⟩
        · rw [← hf]
          exact hrt
        · rw [← hf]
      · rw [h, if_pos rfl] at he
        simp at he
    · obtain ⟨u, hperm, hthr, hform⟩ := ih (stepTable t c) e he
      exact ⟨u, hperm.trans (stepTable_perm t c), hthr, hform⟩

/-- Claim C3: whenever `build` materializes a split, the stored
`SplitPoint` is one of the scan-order candidates, each candidate's gain
is computed by the claimed formula over the prefix/suffix targets of the
scan-time sorted table, no candidate's gain is strictly greater than the
stored one (IEEE comparison), no candidate scanned before the stored one
has an equal gain (so among ties the lower column, then the lower row,
wins — the candidate list is strictly ordered by column then row). -/
theorem claim_C3 (crit : List F64 → F64) (cls : Bool) (fuel : ℕ) (t : Table)
    (lab : F64) (sp : SplitPoint) (l r : Node)
    (h : build crit cls fuel t = some (Node.node lab sp l r)) :
    ∃ a₁ e a₂,
      annSplits crit (crit t.target) t.target.length (List.range t.ncols) t =
        a₁ ++ e :: a₂ ∧
      e.2.2 = sp ∧
      (∀ e' ∈ annSplits crit (crit t.target) t.target.length
          (List.range t.ncols) t,
        F64.ltb sp.information_gain e'.2.2.information_gain = false) ∧
      (∀ e' ∈ a₁,
        F64.beq e'.2.2.information_gain sp.information_gain = false) ∧
      (annSplits crit (crit t.target) t.target.length
        (List.range t.ncols) t).Pairwise entLex ∧
      (∀ e' ∈ annSplits crit (crit t.target) t.target.length
          (List.range t.ncols) t,
        ∃ u : Table, u.rows.Perm t.rows ∧
          (e'.2.1, e'.2.2.threshold) ∈
            Table.thresholds ((u.sortRowsByFeature e'.1).colVals e'.1) ∧
          e'.2.2 = SplitPoint.mk (gainAt crit (crit t.target)
              t.target.length (Table.target (u.sortRowsByFeature e'.1)) e'.2.1)
            e'.1 e'.2.2.threshold) := by
  cases fuel with
  | zero => simp [build] at h
  | succ fuel =>
    rw [build] at h
    by_cases hsing : t.isSingleTarget
    · rw [if_pos hsing] at h
      rcases hh : t.target.head? with _ | y <;> rw [hh] at h <;> simp at h
    · rw [if_neg hsing] at h
      rcases hb : (scanFold crit (crit t.target) t.target.length
          (List.range t.ncols) (none, t)).1 with _ | sp'
      · rw [hb] at h
        simp at h
      · rw [hb] at h
        have h2 : (match build crit cls fuel (leftChild t sp'),
              build crit cls fuel (rightChild t sp') with
            | some l, some r => some (Node.node
                (if cls then mostFrequent t.target else mean t.target) sp' l r)
            | _, _ => none) = some (Node.node lab sp l r) := h
        rcases hl : build crit cls fuel (leftChild t sp') with _ | l1 <;>
          rw [hl] at h2
        · simp at h2
        · rcases hr : build crit cls fuel (rightChild t sp') with _ | r1 <;>
            rw [hr] at h2
          · simp at h2
          · simp only [Option.some.injEq, Node.node.injEq] at h2
            obtain ⟨_, hsp, _, _⟩ := h2
            subst hsp
            rw [scanFold_eq] at hb
            simp only at hb
            obtain ⟨l₁, l₂, hdec, hmax, hne⟩ := bestFold_split hb
            obtain ⟨a₁, e, a₂, hadec, hfe, hm1, _⟩ := map_eq_append_cons _ hdec
            refine ⟨a₁, e, a₂, hadec, hfe, ?_, ?_,
              annSplits_lex crit (crit t.target) t.target.length
                (List.range t.ncols) t (List.pairwise_lt_range t.ncols), ?_⟩
            · intro e' he'
              exact hmax _ (List.mem_map.2 ⟨e', he', rfl⟩)
            · intro e' he'
              apply hne
              rw [← hm1]
              exact List.mem_map.2 ⟨e', he', rfl⟩
            · intro e' he'
              exact mem_annSplits_form crit (crit t.target) t.target.length
                (List.range t.ncols) t e' he'

/-- Witness for C3 at the end-to-end example table. -/
theorem claim_C3_witness :
    build Mse.calculate false 5 exTable = some (Node.node (F64.val 5)
      ⟨F64.val 25, 0, F64.val 3⟩ (Node.leaf (F64.val 0))
      (Node.leaf (F64.val 10))) ∧
    (∃ a₁ e a₂,
      annSplits Mse.calculate (Mse.calculate exTable.target)
        exTable.target.length (List.range exTable.ncols) exTable =
        a₁ ++ e :: a₂ ∧
      e.2.2 = (⟨F64.val 25, 0, F64.val 3⟩ : SplitPoint) ∧
      (∀ e' ∈ annSplits Mse.calculate (Mse.calculate exTable.target)
          exTable.target.length (List.range exTable.ncols) exTable,
        F64.ltb (F64.val 25) e'.2.2.information_gain = false) ∧
      (∀ e' ∈ a₁,
        F64.beq e'.2.2.information_gain (F64.val 25) = false) ∧
      (annSplits Mse.calculate (Mse.calculate exTable.target)
        exTable.target.length (List.range exTable.ncols) exTable).Pairwise
        entLex ∧
      (∀ e' ∈ annSplits Mse.calculate (Mse.calculate exTable.target)
          exTable.target.length (List.range exTable.ncols) exTable,
        ∃ u : Table, u.rows.Perm exTable.rows ∧
          (e'.2.1, e'.2.2.threshold) ∈
            Table.thresholds ((u.sortRowsByFeature e'.1).colVals e'.1) ∧
          e'.2.2 = SplitPoint.mk (gainAt Mse.calculate
              (Mse.calculate exTable.target) exTable.target.length
              (Table.target (u.sortRowsByFeature e'.1)) e'.2.1)
            e'.1 e'.2.2.threshold)) := by
  refine ⟨by with_unfolding_all rfl, ?_⟩
  exact claim_C3 Mse.calculate false 5 exTable (F64.val 5)
    ⟨F64.val 25, 0, F64.val 3⟩ (Node.leaf (F64.val 0))
    (Node.leaf (F64.val 10)) (by with_unfolding_all rfl)

end Fanova
